import Mathlib

/-
Verification development for the Junk-Drawer repository.

We give a shallow embedding of the two portable components described by the
specification and check the frozen claims against it:

1. The lazy cached attribute descriptor, from src/utils.py.
   Sequential behaviour is modelled by pure state-passing
   functions over a per-instance state record; the concurrency contract is
   modelled by an interleaving small-step transition system with an explicit
   per-attribute lock.

2. The composition adapters, from src/py/abstract.py and src/abstract.py.
   Each method is translated into a pure function over the
   current contents of the underlying container, using a Python-faithful model
   of list indexing (negative indices, clamping on insert) and mapping lookup.
-/

/-! ## Sequential model of the lazy cached attribute

The state of one (instance, attribute) pair.  The slot is Unset when it holds
no computed value.  The fields count and locks are instrumentation: count is
the number of invocations of the compute function (the counting compute
function of the specification), locks the number of lock acquisitions.
-/

structure CPState (V : Type) where
  slot     : Option V
  count    : Nat
  locks    : Nat
  lockHeld : Bool
deriving DecidableEq, Repr

/-- Initial state of a fresh instance: the slot is Unset, nothing has run. -/
def cp_init {V : Type} : CPState V := ⟨none, 0, 0, false⟩

/-- Entering the with-block of the RLock in cachedproperty: the lock is
acquired and the acquisition is counted. -/
def cp_acquire {V : Type} (s : CPState V) : CPState V :=
  { s with lockHeld := true, locks := s.locks + 1 }

/-- Leaving the with-block: the lock is released (also on the exception
path, since the with-statement releases unconditionally). -/
def cp_release {V : Type} (s : CPState V) : CPState V :=
  { s with lockHeld := false }

/-- Body of the with-block in the slow path of the source method
cachedproperty.get: re-check the slot (the value may have been set while
awaiting the lock); if still Unset invoke the compute function; on success
store the result; the lock is released on every exit path and the exception
of a failing compute propagates unwrapped.  The compute function is indexed
by the invocation counter so that a single model covers compute functions
whose behaviour differs between calls. -/
def cp_get_locked {V E : Type} (fget : Nat → Except E V) (s : CPState V) :
    Except E V × CPState V :=
  match s.slot with
  | some v => (Except.ok v, cp_release s)
  | none =>
      match fget s.count with
      | Except.ok v =>
          (Except.ok v, cp_release { s with slot := some v, count := s.count + 1 })
      | Except.error e =>
          (Except.error e, cp_release { s with count := s.count + 1 })

/-- The source method cachedproperty.get for an instance access: fast
path returns the stored value without touching the lock; otherwise the lock
is acquired and the locked body runs. -/
def cp_get {V E : Type} (fget : Nat → Except E V) (s : CPState V) :
    Except E V × CPState V :=
  match s.slot with
  | some v => (Except.ok v, s)
  | none => cp_get_locked fget (cp_acquire s)

/-- Outcome of the full descriptor access, covering class access. -/
inductive GetOutcome (E V : Type) where
  | descriptor
  | value (v : V)
  | raised (e : E)
deriving DecidableEq, Repr

/-- The source method cachedproperty.get including the class-access
branch: when the instance argument is None the descriptor object itself is
returned at once, before any slot read or lock acquisition. -/
def cp_get_full {V E : Type} (fget : Nat → Except E V) (inst : Option Unit)
    (s : CPState V) : GetOutcome E V × CPState V :=
  match inst with
  | none => (GetOutcome.descriptor, s)
  | some _ =>
      match cp_get fget s with
      | (Except.ok v, t) => (GetOutcome.value v, t)
      | (Except.error e, t) => (GetOutcome.raised e, t)

/-- Iterated reads: perform n successive reads, keeping only the state. -/
def cp_reads {V E : Type} (fget : Nat → Except E V) : Nat → CPState V → CPState V
  | 0, s => s
  | n + 1, s => cp_reads fget n (cp_get fget s).2

/-- On a state whose slot is set, a read returns the stored value and leaves
the state untouched (the fast path of the source). -/
theorem cp_get_of_set {V E : Type} (fget : Nat → Except E V) (s : CPState V)
    (v : V) (h : s.slot = some v) : cp_get fget s = (Except.ok v, s) := by
  simp [cp_get, h]

/-- Iterated reads on a state whose slot is set do not move the state. -/
theorem cp_reads_of_set {V E : Type} (fget : Nat → Except E V) (s : CPState V)
    (v : V) (h : s.slot = some v) : ∀ n, cp_reads fget n s = s := by
  intro n
  induction n with
  | zero => rfl
  | succ n ih => simp [cp_reads, cp_get_of_set fget s v h, ih]

/-- Claim C1: when the compute function succeeds on the first read of a fresh
instance, that read returns the computed value and invokes compute exactly
once (count becomes 1); every one of the following n reads leaves the state
unchanged (so count stays 1 and compute is never re-invoked) and returns the
identical value object. -/
theorem cachedproperty_compute_once {V E : Type} (fget : Nat → Except E V)
    (v₀ : V) (h : fget 0 = Except.ok v₀) :
    cp_get fget (cp_init : CPState V) =
      (Except.ok v₀, ⟨some v₀, 1, 1, false⟩) ∧
    ∀ n : Nat,
      cp_reads fget n (cp_get fget (cp_init : CPState V)).2 =
        (cp_get fget (cp_init : CPState V)).2 ∧
      cp_get fget (cp_reads fget n (cp_get fget (cp_init : CPState V)).2) =
        (Except.ok v₀, (cp_get fget (cp_init : CPState V)).2) := by
  have hfirst : cp_get fget (cp_init : CPState V) =
      (Except.ok v₀, ⟨some v₀, 1, 1, false⟩) := by
    simp [cp_get, cp_init, cp_get_locked, cp_acquire, cp_release, h]
  refine ⟨hfirst, ?_⟩
  intro n
  have hslot : (cp_get fget (cp_init : CPState V)).2.slot = some v₀ := by
    rw [hfirst]
  refine ⟨cp_reads_of_set fget _ v₀ hslot n, ?_⟩
  rw [cp_reads_of_set fget _ v₀ hslot n]
  exact cp_get_of_set fget _ v₀ hslot

/-- Witness for C1 at a concrete counting-style compute function. -/
theorem cachedproperty_compute_once_witness :
    cp_get (fun _ => (Except.ok 42 : Except String Nat)) cp_init =
      (Except.ok 42, ⟨some 42, 1, 1, false⟩) ∧
    cp_reads (fun _ => (Except.ok 42 : Except String Nat)) 3
        (cp_get (fun _ => (Except.ok 42 : Except String Nat)) cp_init).2 =
      (cp_get (fun _ => (Except.ok 42 : Except String Nat)) cp_init).2 :=
  ⟨(cachedproperty_compute_once (fun _ => (Except.ok 42 : Except String Nat))
      42 rfl).1,
   ((cachedproperty_compute_once (fun _ => (Except.ok 42 : Except String Nat))
      42 rfl).2 3).1⟩

/-- Claim C3: when the compute function raises on the first read, no value is
stored (the slot stays Unset), the lock is released (lockHeld is false in the
resulting state with one acquisition counted), the error propagates unwrapped,
and the next read invokes the compute function again: its result is exactly
the second invocation of compute and the invocation count rises to 2. -/
theorem cachedproperty_failure_not_cached {V E : Type} (fget : Nat → Except E V)
    (e : E) (h : fget 0 = Except.error e) :
    cp_get fget (cp_init : CPState V) = (Except.error e, ⟨none, 1, 1, false⟩) ∧
    (cp_get fget (⟨none, 1, 1, false⟩ : CPState V)).1 = fget 1 ∧
    (cp_get fget (⟨none, 1, 1, false⟩ : CPState V)).2.count = 2 := by
  refine ⟨?_, ?_, ?_⟩
  · simp [cp_get, cp_init, cp_get_locked, cp_acquire, cp_release, h]
  · cases h1 : fget 1 with
    | ok v => simp [cp_get, cp_get_locked, cp_acquire, cp_release, h1]
    | error e1 => simp [cp_get, cp_get_locked, cp_acquire, cp_release, h1]
  · cases h1 : fget 1 with
    | ok v => simp [cp_get, cp_get_locked, cp_acquire, cp_release, h1]
    | error e1 => simp [cp_get, cp_get_locked, cp_acquire, cp_release, h1]

/-- Witness for C3 at a compute function that raises first and succeeds on
the retry. -/
theorem cachedproperty_failure_not_cached_witness :
    cp_get (fun n => if n = 0 then Except.error "boom" else Except.ok (7 : Nat))
        cp_init =
      (Except.error "boom", ⟨none, 1, 1, false⟩) ∧
    (cp_get (fun n => if n = 0 then Except.error "boom" else Except.ok (7 : Nat))
        (⟨none, 1, 1, false⟩ : CPState Nat)).1 =
      (fun n => if n = 0 then Except.error "boom" else Except.ok (7 : Nat)) 1 ∧
    (cp_get (fun n => if n = 0 then Except.error "boom" else Except.ok (7 : Nat))
        (⟨none, 1, 1, false⟩ : CPState Nat)).2.count = 2 :=
  cachedproperty_failure_not_cached
    (fun n => if n = 0 then Except.error "boom" else Except.ok (7 : Nat))
    "boom" rfl

/-- Claim C10: a class access (instance argument None) returns the descriptor
object itself and leaves the state untouched: the slot is not read or written,
the compute count is unchanged (compute not invoked) and the lock-acquisition
count is unchanged (no lock acquired). -/
theorem cachedproperty_class_access {V E : Type} (fget : Nat → Except E V)
    (s : CPState V) :
    cp_get_full fget none s = (GetOutcome.descriptor, s) ∧
    (cp_get_full fget none s).2.slot = s.slot ∧
    (cp_get_full fget none s).2.count = s.count ∧
    (cp_get_full fget none s).2.locks = s.locks := by
  exact ⟨rfl, rfl, rfl, rfl⟩

/-! ## Deletion through the Property descriptor

The method delete of the Property class in src/abstract.py runs
self._fdel(inst) and turns a TypeError (in particular the call of None when
no deleter is configured) into an AttributeError.  The deleter is a user
callback receiving the instance; the descriptor machinery itself neither
reads the old slot value nor resets the slot.
-/

/-- Outcome of the source method Property.delete. -/
inductive DeleteOutcome (V : Type) where
  | ok (s : CPState V)
  | attributeError
deriving DecidableEq, Repr

/-- The source method Property.delete: with no deleter configured the call
of None raises TypeError, converted to AttributeError; otherwise the user
callback runs on the instance and its effect on the instance state is the
entire effect of the deletion. -/
def prop_delete {V : Type} (fdel : Option (CPState V → CPState V))
    (s : CPState V) : DeleteOutcome V :=
  match fdel with
  | none => DeleteOutcome.attributeError
  | some f => DeleteOutcome.ok (f s)

/-- Counterexample to claim C6 as stated: a configured deleter callback that
does not clear the slot leaves the slot set after the deletion, so deleting
does not by itself reset the storage slot to Unset. -/
theorem property_delete_no_reset_counterexample :
    prop_delete (some id) (⟨some 5, 1, 1, false⟩ : CPState Nat) =
      DeleteOutcome.ok ⟨some 5, 1, 1, false⟩ ∧
    (⟨some 5, 1, 1, false⟩ : CPState Nat).slot ≠ none := by
  exact ⟨rfl, by simp⟩

/-- Claim C6 amended: deletion is delegated entirely to the configured
deleter callback, which is invoked with the instance; with no deleter
configured the deletion raises AttributeError.  The slot returns to Unset
only when the callback itself clears it, and in that case the next read
invokes the compute function again. -/
theorem property_delete_delegates {V E : Type}
    (f : CPState V → CPState V) (fget : Nat → Except E V) (s : CPState V)
    (hclears : (f s).slot = none) :
    prop_delete (some f) s = DeleteOutcome.ok (f s) ∧
    prop_delete (none : Option (CPState V → CPState V)) s =
      DeleteOutcome.attributeError ∧
    (cp_get fget (f s)).1 = fget (f s).count ∧
    (cp_get fget (f s)).2.count = (f s).count + 1 := by
  refine ⟨rfl, rfl, ?_, ?_⟩
  · cases h1 : fget (f s).count with
    | ok v =>
        simp [cp_get, cp_get_locked, cp_acquire, cp_release, hclears, h1]
    | error e =>
        simp [cp_get, cp_get_locked, cp_acquire, cp_release, hclears, h1]
  · cases h1 : fget (f s).count with
    | ok v =>
        simp [cp_get, cp_get_locked, cp_acquire, cp_release, hclears, h1]
    | error e =>
        simp [cp_get, cp_get_locked, cp_acquire, cp_release, hclears, h1]

/-- Witness for the amended C6 at a concrete clearing deleter. -/
theorem property_delete_delegates_witness :
    prop_delete (some (fun t : CPState Nat => { t with slot := none }))
        (⟨some 5, 1, 1, false⟩ : CPState Nat) =
      DeleteOutcome.ok ⟨none, 1, 1, false⟩ ∧
    prop_delete (none : Option (CPState Nat → CPState Nat))
        (⟨some 5, 1, 1, false⟩ : CPState Nat) = DeleteOutcome.attributeError ∧
    (cp_get (fun _ => (Except.ok 9 : Except String Nat))
        (⟨none, 1, 1, false⟩ : CPState Nat)).1 = Except.ok 9 ∧
    (cp_get (fun _ => (Except.ok 9 : Except String Nat))
        (⟨none, 1, 1, false⟩ : CPState Nat)).2.count = 2 :=
  property_delete_delegates (fun t : CPState Nat => { t with slot := none })
    (fun _ => (Except.ok 9 : Except String Nat))
    (⟨some 5, 1, 1, false⟩ : CPState Nat) rfl

/-! ## Storage-slot identity of lazy cached attributes

The method set_name of cachedproperty in src/utils.py fixes the storage
location of the per-instance value at declaration time.  On a declaring class
without a managed instance dictionary the location is the slot member named
to_slot_name(name); on a declaring class with a managed dictionary it is the
instance-dictionary entry under the attribute name itself.  The declaring
type enters the choice only through its storage mode, never through its
identity.
-/

/-- Storage mode of the declaring class, as tested by managed_dict_type. -/
inductive StorageMode where
  | slotted
  | managed
deriving DecidableEq, Repr

/-- The source static method cachedproperty.to_slot_name: the attribute
name prefixed with a single underscore. -/
def to_slot_name (name : String) : String := "_" ++ name

/-- Per-instance storage location: a slot member of a slotted class, or an
entry of the managed instance dictionary. -/
inductive SlotRef where
  | member (s : String)
  | dictKey (s : String)
deriving DecidableEq, Repr

/-- One lazy cached attribute declaration: the declaring type (by name), its
storage mode, and the attribute name passed to set_name. -/
structure AttrDecl where
  declType : String
  mode     : StorageMode
  attrName : String
deriving DecidableEq, Repr

/-- The storage location chosen by the source method
cachedproperty.set_name on the default path (no explicit name argument):
slotted classes store under the slot member to_slot_name(name), managed
classes under the dictionary key name. -/
def slot_ref_of (d : AttrDecl) : SlotRef :=
  match d.mode with
  | StorageMode.slotted => SlotRef.member (to_slot_name d.attrName)
  | StorageMode.managed => SlotRef.dictKey d.attrName

/-- Prepending the underscore is injective on attribute names. -/
theorem to_slot_name_injective (a b : String) (h : to_slot_name a = to_slot_name b) :
    a = b := by
  have hd : ("_" ++ a).data = ("_" ++ b).data := by
    simpa [to_slot_name] using congrArg String.data h
  simp [String.data_append] at hd
  exact String.ext hd

/-- Counterexample to claim C5 as stated: two lazy cached attributes with
distinct (declaring type, attribute name) pairs — the same attribute name
declared on two different slotted classes — are mapped to the very same
per-instance storage slot, because the slot name depends only on the
attribute name and the storage mode, never on the declaring type. -/
theorem slot_identity_counterexample :
    (AttrDecl.mk "A" StorageMode.slotted "x") ≠
      (AttrDecl.mk "B" StorageMode.slotted "x") ∧
    slot_ref_of (AttrDecl.mk "A" StorageMode.slotted "x") =
      slot_ref_of (AttrDecl.mk "B" StorageMode.slotted "x") := by
  exact ⟨by decide, rfl⟩

/-- Claim C5 amended: the storage slot is determined by the attribute name
and the storage mode alone; two lazy cached attributes with distinct
attribute names never share a storage slot, whatever their declaring types
and storage modes — and since at most one attribute per name is reachable on
any one subclass, two attributes both reachable on a subclass never read or
write the same slot. -/
theorem slot_identity_by_name (d₁ d₂ : AttrDecl)
    (h : d₁.attrName ≠ d₂.attrName) : slot_ref_of d₁ ≠ slot_ref_of d₂ := by
  intro heq
  apply h
  cases hm₁ : d₁.mode with
  | slotted =>
      cases hm₂ : d₂.mode with
      | slotted =>
          simp [slot_ref_of, hm₁, hm₂] at heq
          exact to_slot_name_injective _ _ heq
      | managed => simp [slot_ref_of, hm₁, hm₂] at heq
  | managed =>
      cases hm₂ : d₂.mode with
      | slotted => simp [slot_ref_of, hm₁, hm₂] at heq
      | managed => simpa [slot_ref_of, hm₁, hm₂] using heq

/-- Witness for the amended C5 on two concrete declarations with different
attribute names and different storage modes. -/
theorem slot_identity_by_name_witness :
    slot_ref_of (AttrDecl.mk "A" StorageMode.slotted "x") ≠
      slot_ref_of (AttrDecl.mk "B" StorageMode.managed "y") :=
  slot_identity_by_name (AttrDecl.mk "A" StorageMode.slotted "x")
    (AttrDecl.mk "B" StorageMode.managed "y") (by decide)

/-! ## Python container primitives

Faithful models of the operations of the built-in list and dict that the
composition adapters delegate to: list subscripts accept negative indices
counted from the tail, subscript errors are IndexError and KeyError, insert
clamps its index, remove raises ValueError on a missing value.  A dict is
modelled as an association list whose first matching entry wins.
-/

/-- Errors raised by the underlying containers and mirrored by the adapter. -/
inductive PyErr where
  | indexOutOfRange
  | keyNotFound
  | valueError
deriving DecidableEq, Repr

/-- Normalisation of a Python sequence index: a negative index counts from
the tail. -/
def pyIndex (len : Nat) (i : Int) : Int := if i < 0 then i + len else i

/-- Subscript read of a Python list. -/
def pyList_get {T : Type} (l : List T) (i : Int) : Except PyErr T :=
  if h : 0 ≤ pyIndex l.length i ∧ pyIndex l.length i < l.length then
    Except.ok (l.get ⟨(pyIndex l.length i).toNat, by omega⟩)
  else Except.error PyErr.indexOutOfRange

/-- Subscript write of a Python list. -/
def pyList_set {T : Type} (l : List T) (i : Int) (v : T) : Except PyErr (List T) :=
  if 0 ≤ pyIndex l.length i ∧ pyIndex l.length i < l.length then
    Except.ok (l.set (pyIndex l.length i).toNat v)
  else Except.error PyErr.indexOutOfRange

/-- Subscript deletion of a Python list. -/
def pyList_del {T : Type} (l : List T) (i : Int) : Except PyErr (List T) :=
  if 0 ≤ pyIndex l.length i ∧ pyIndex l.length i < l.length then
    Except.ok (l.eraseIdx (pyIndex l.length i).toNat)
  else Except.error PyErr.indexOutOfRange

/-- Append of a Python list. -/
def pyList_append {T : Type} (l : List T) (v : T) : List T := l ++ [v]

/-- Extend of a Python list. -/
def pyList_extend {T : Type} (l : List T) (s : List T) : List T := l ++ s

/-- Insert of a Python list: the position is clamped into range, never an
error. -/
def pyList_insert {T : Type} (l : List T) (i : Int) (v : T) : List T :=
  l.insertIdx (max 0 (min (pyIndex l.length i) l.length)).toNat v

/-- Pop of a Python list: removes and returns the element at the index. -/
def pyList_pop {T : Type} (l : List T) (i : Int) : Except PyErr (T × List T) :=
  if h : 0 ≤ pyIndex l.length i ∧ pyIndex l.length i < l.length then
    Except.ok (l.get ⟨(pyIndex l.length i).toNat, by omega⟩,
      l.eraseIdx (pyIndex l.length i).toNat)
  else Except.error PyErr.indexOutOfRange

/-- Remove of a Python list: deletes the first occurrence, ValueError when
the value is absent. -/
def pyList_remove {T : Type} [DecidableEq T] (l : List T) (v : T) :
    Except PyErr (List T) :=
  if v ∈ l then Except.ok (l.erase v) else Except.error PyErr.valueError

/-- In-place reversal of a Python list. -/
def pyList_reverse {T : Type} (l : List T) : List T := l.reverse

/-- Subscript read of a Python dict, modelled on an association list. -/
def pyDict_get {K V : Type} [DecidableEq K] : List (K × V) → K → Except PyErr V
  | [], _ => Except.error PyErr.keyNotFound
  | p :: rest, k => if p.1 = k then Except.ok p.2 else pyDict_get rest k

/-- Normalised index in bounds exactly when the raw index lies in the
Python-accepted range. -/
theorem pyIndex_in_bounds (len : Nat) (i : Int) :
    (0 ≤ pyIndex len i ∧ pyIndex len i < len) ↔ (-(len : Int) ≤ i ∧ i < len) := by
  unfold pyIndex
  split_ifs with h <;> omega

/-- Characterisation of the IndexError of the list subscript. -/
theorem pyList_get_err_iff {T : Type} (l : List T) (i : Int) :
    pyList_get l i = Except.error PyErr.indexOutOfRange ↔
      ¬(-(l.length : Int) ≤ i ∧ i < l.length) := by
  unfold pyList_get
  split_ifs with h
  · simp [(pyIndex_in_bounds l.length i).mp h]
  · simpa using fun hc => h ((pyIndex_in_bounds l.length i).mpr hc)

/-- Characterisation of the KeyError of the dict subscript. -/
theorem pyDict_get_err_iff {K V : Type} [DecidableEq K]
    (m : List (K × V)) (k : K) :
    pyDict_get m k = Except.error PyErr.keyNotFound ↔ k ∉ m.map Prod.fst := by
  induction m with
  | nil => simp [pyDict_get]
  | cons p rest ih =>
      by_cases hp : p.1 = k
      · simp [pyDict_get, hp]
      · simp only [pyDict_get, if_neg hp, List.map_cons, List.mem_cons, ih]
        constructor
        · intro hnm hk
          rcases hk with hk | hk
          · exact hp hk.symm
          · exact hnm hk
        · intro hnm hk
          exact hnm (Or.inr hk)

/-! ## Composition adapters

State-passing translations of the adapter methods of src/py/abstract.py.
Each read method returns its result together with the underlying container
it leaves behind, so that the frame property (reads never mutate) is an
assertion and not a typing accident; each write method of the mutable
variant returns the new underlying container.
-/

/-- The source method ComposedContainer.contains: membership test on the
underlying container. -/
def ComposedContainer.contains {T : Type} [DecidableEq T] (ov : List T)
    (v : T) : Bool × List T := (decide (v ∈ ov), ov)

/-- The source method ComposedContainer.iter: iteration yields the current
contents of the underlying container (no snapshot). -/
def ComposedContainer.iter {T : Type} (ov : List T) : List T × List T := (ov, ov)

/-- The source method ComposedContainer.len: length of the underlying
container. -/
def ComposedContainer.length {T : Type} (ov : List T) : Nat × List T :=
  (ov.length, ov)

/-- The accessor-based variant Composed.len of src/abstract.py: the
underlying container is read through the object-state method at call time. -/
def Composed.len {σ T : Type} (state : σ → List T) (st : σ) : Nat :=
  (state st).length

/-- The source method Keyed.getitem: keyed access delegated to the
underlying mapping. -/
def Keyed.getitem {K V : Type} [DecidableEq K] (m : List (K × V)) (k : K) :
    Except PyErr V × List (K × V) := (pyDict_get m k, m)

/-- The source method Keyed.get with a default: returns the default instead
of failing. -/
def Keyed.getD {K V : Type} [DecidableEq K] (m : List (K × V)) (k : K)
    (d : V) : V × List (K × V) :=
  (match pyDict_get m k with
   | Except.ok v => v
   | Except.error _ => d, m)

/-- The source method Mapped.keys: a view of the keys of the underlying
mapping as of the observation. -/
def Mapped.keys {K V : Type} (m : List (K × V)) : List K × List (K × V) :=
  (m.map Prod.fst, m)

/-- The source method Mapped.values. -/
def Mapped.values {K V : Type} (m : List (K × V)) : List V × List (K × V) :=
  (m.map Prod.snd, m)

/-- The source method Mapped.items. -/
def Mapped.items {K V : Type} (m : List (K × V)) :
    List (K × V) × List (K × V) := (m, m)

/-- The source method Indexed.getitem: indexed access delegated to the
underlying sequence. -/
def Indexed.getitem {T : Type} (ov : List T) (i : Int) :
    Except PyErr T × List T := (pyList_get ov i, ov)

/-- The source method Indexed.reversed: reverse iteration over the current
contents. -/
def Indexed.reversed {T : Type} (ov : List T) : List T × List T :=
  (ov.reverse, ov)

/-- The source method Indexed.count. -/
def Indexed.countOf {T : Type} [DecidableEq T] (ov : List T) (v : T) :
    Nat × List T := (ov.count v, ov)

/-- The source method Arrayed.setitem: write-through to the underlying
mutable sequence. -/
def Arrayed.setitem {T : Type} (ov : List T) (i : Int) (v : T) :
    Except PyErr (List T) := pyList_set ov i v

/-- The source method Arrayed.delitem. -/
def Arrayed.delitem {T : Type} (ov : List T) (i : Int) :
    Except PyErr (List T) := pyList_del ov i

/-- The source method Arrayed.append. -/
def Arrayed.append {T : Type} (ov : List T) (v : T) : List T :=
  pyList_append ov v

/-- The source method Arrayed.extend. -/
def Arrayed.extend {T : Type} (ov : List T) (s : List T) : List T :=
  pyList_extend ov s

/-- The source method Arrayed.insert. -/
def Arrayed.insert {T : Type} (ov : List T) (i : Int) (v : T) : List T :=
  pyList_insert ov i v

/-- The source method Arrayed.pop. -/
def Arrayed.pop {T : Type} (ov : List T) (i : Int) :
    Except PyErr (T × List T) := pyList_pop ov i

/-- The source method Arrayed.remove. -/
def Arrayed.remove {T : Type} [DecidableEq T] (ov : List T) (v : T) :
    Except PyErr (List T) := pyList_remove ov v

/-- The source method Arrayed.reverse. -/
def Arrayed.reverse {T : Type} (ov : List T) : List T := pyList_reverse ov

/-- Claim C4: the length reported by an adapter equals the length of the
underlying container at every observation point, including immediately after
an arbitrary direct mutation f of the underlying container; the same holds
for the accessor-based adapter of src/abstract.py under an arbitrary
mutation g of the owning state. -/
theorem adapter_length_tracks {T σ : Type} (ov : List T) (f : List T → List T)
    (view : σ → List T) (st : σ) (g : σ → σ) :
    (ComposedContainer.length ov).1 = ov.length ∧
    (ComposedContainer.length (f ov)).1 = (f ov).length ∧
    Composed.len view st = (view st).length ∧
    Composed.len view (g st) = (view (g st)).length :=
  ⟨rfl, rfl, rfl, rfl⟩

/-- Claim C7: indexed and keyed adapter access delegate exactly to the
underlying container and fail exactly when the underlying subscript would:
the indexed access fails with IndexError precisely outside the accepted
index range and the keyed access fails with KeyError precisely when the key
is absent.  The concrete scenario of the specification is included: on the
container [1, 2, 3] the adapter contains 2, index 5 fails with IndexError,
and after a direct append of 4 the reported length is 4. -/
theorem adapter_subscript_delegates {T K V : Type} [DecidableEq K]
    (ov : List T) (i : Int) (m : List (K × V)) (k : K) :
    (Indexed.getitem ov i).1 = pyList_get ov i ∧
    (pyList_get ov i = Except.error PyErr.indexOutOfRange ↔
      ¬(-(ov.length : Int) ≤ i ∧ i < ov.length)) ∧
    (Keyed.getitem m k).1 = pyDict_get m k ∧
    (pyDict_get m k = Except.error PyErr.keyNotFound ↔ k ∉ m.map Prod.fst) ∧
    (ComposedContainer.contains [1, 2, 3] 2).1 = true ∧
    pyList_get [1, 2, 3] 5 = Except.error PyErr.indexOutOfRange ∧
    (ComposedContainer.length (pyList_append [1, 2, 3] 4)).1 = 4 := by
  refine ⟨rfl, pyList_get_err_iff ov i, rfl, pyDict_get_err_iff m k, ?_, ?_, rfl⟩
  · decide
  · rfl

/-- Claim C8: no read operation of the adapter mutates the underlying
container — each read returns the underlying container unchanged — and every
write operation of the mutable variant is a direct pass-through to the
corresponding operation of the underlying mutable container. -/
theorem adapter_reads_pure_writes_pass_through {T K V : Type}
    [DecidableEq T] [DecidableEq K]
    (ov : List T) (v : T) (i : Int) (s : List T)
    (m : List (K × V)) (k : K) (d : V) :
    (ComposedContainer.contains ov v).2 = ov ∧
    (ComposedContainer.iter ov).2 = ov ∧
    (ComposedContainer.length ov).2 = ov ∧
    (Indexed.getitem ov i).2 = ov ∧
    (Indexed.reversed ov).2 = ov ∧
    (Indexed.countOf ov v).2 = ov ∧
    (Keyed.getitem m k).2 = m ∧
    (Keyed.getD m k d).2 = m ∧
    (Mapped.keys m).2 = m ∧
    (Mapped.values m).2 = m ∧
    (Mapped.items m).2 = m ∧
    Arrayed.setitem ov i v = pyList_set ov i v ∧
    Arrayed.delitem ov i = pyList_del ov i ∧
    Arrayed.append ov v = pyList_append ov v ∧
    Arrayed.extend ov s = pyList_extend ov s ∧
    Arrayed.insert ov i v = pyList_insert ov i v ∧
    Arrayed.pop ov i = pyList_pop ov i ∧
    Arrayed.remove ov v = pyList_remove ov v ∧
    Arrayed.reverse ov = pyList_reverse ov :=
  ⟨rfl, rfl, rfl, rfl, rfl, rfl, rfl, rfl, rfl, rfl, rfl, rfl, rfl, rfl, rfl,
   rfl, rfl, rfl, rfl⟩

/-- Mutable adapter with an explicit object identity, for the in-place
combine operators of the source class Arrayed. -/
structure ArrayedObj (T : Type) where
  oid : Nat
  ov  : List T
deriving DecidableEq, Repr

/-- The source method Arrayed.add: extends the underlying container in
place (it may not be writable as a whole) and returns self. -/
def ArrayedObj.add {T : Type} (a : ArrayedObj T) (s : List T) : ArrayedObj T :=
  { a with ov := a.ov ++ s }

/-- The source alias Arrayed.iadd, defined to be the same function as the
combine operator. -/
def ArrayedObj.iadd {T : Type} : ArrayedObj T → List T → ArrayedObj T :=
  ArrayedObj.add

/-- The source alias Arrayed.radd, defined to be the same function as the
combine operator (so a reflected combine also extends with the operand, on
the right). -/
def ArrayedObj.radd {T : Type} : ArrayedObj T → List T → ArrayedObj T :=
  ArrayedObj.add

/-- Claim C9: every combine operator of the mutable adapter extends the
underlying container with the operand in place and returns the very same
adapter object (the object identity is preserved), and the in-place and
reflected forms are the same operation as the plain combine. -/
theorem arrayed_combine_in_place {T : Type} (a : ArrayedObj T) (s : List T) :
    (ArrayedObj.add a s).oid = a.oid ∧
    (ArrayedObj.add a s).ov = a.ov ++ s ∧
    ArrayedObj.iadd a s = ArrayedObj.add a s ∧
    ArrayedObj.radd a s = ArrayedObj.add a s :=
  ⟨rfl, rfl, rfl, rfl⟩

/-! ## Interleaving model of concurrent first reads

The concurrency contract of the lazy cached attribute is modelled by a
small-step transition system: K threads each run the body of the source
method cachedproperty.get on the same instance and the same attribute, and
any interleaving of their atomic actions is allowed.  The atomic actions
mirror the source line by line: the unlocked fast-path read of the slot,
the acquisition of the per-attribute lock, the re-check of the slot under
the lock, the invocation of the compute function, the store of the result,
and the release of the lock followed by the return.  The compute function
is total here and returns the fixed value fv, matching the claim, which is
about an Unset attribute whose compute succeeds.
-/

/-- Control state of one thread running the read. -/
inductive TState (V : Type) where
  | fastpath
  | awaiting
  | locked
  | computing
  | storing   (v : V)
  | finishing (v : V)
  | done      (v : V)
deriving DecidableEq, Repr

/-- Shared state: the per-instance slot, the per-attribute lock with the
identity of its holder, the number of compute invocations, and the control
state of every thread. -/
structure CState (V : Type) where
  slot   : Option V
  lock   : Option Nat
  count  : Nat
  thread : Nat → TState V

/-- Initial state: slot Unset, lock free, no compute invocation, every
thread about to take the fast path. -/
def cinit {V : Type} : CState V := ⟨none, none, 0, fun _ => TState.fastpath⟩

/-- One atomic action of one of the K threads.  The constructors follow the
source method cachedproperty.get. -/
inductive Step (K : Nat) {V : Type} (fv : V) : CState V → CState V → Prop where
  | fastHit (s : CState V) (i : Nat) (v : V) (hi : i < K)
      (ht : s.thread i = TState.fastpath) (hs : s.slot = some v) :
      Step K fv s { s with thread := Function.update s.thread i (TState.done v) }
  | fastMiss (s : CState V) (i : Nat) (hi : i < K)
      (ht : s.thread i = TState.fastpath) (hs : s.slot = none) :
      Step K fv s { s with thread := Function.update s.thread i TState.awaiting }
  | acquire (s : CState V) (i : Nat) (hi : i < K)
      (ht : s.thread i = TState.awaiting) (hl : s.lock = none) :
      Step K fv s { s with lock := some i,
                           thread := Function.update s.thread i TState.locked }
  | recheckHit (s : CState V) (i : Nat) (v : V) (hi : i < K)
      (ht : s.thread i = TState.locked) (hs : s.slot = some v) :
      Step K fv s
        { s with thread := Function.update s.thread i (TState.finishing v) }
  | recheckMiss (s : CState V) (i : Nat) (hi : i < K)
      (ht : s.thread i = TState.locked) (hs : s.slot = none) :
      Step K fv s { s with thread := Function.update s.thread i TState.computing }
  | compute (s : CState V) (i : Nat) (hi : i < K)
      (ht : s.thread i = TState.computing) :
      Step K fv s { s with count := s.count + 1,
                           thread := Function.update s.thread i (TState.storing fv) }
  | store (s : CState V) (i : Nat) (v : V) (hi : i < K)
      (ht : s.thread i = TState.storing v) :
      Step K fv s { s with slot := some v,
                           thread := Function.update s.thread i (TState.finishing v) }
  | release (s : CState V) (i : Nat) (v : V) (hi : i < K)
      (ht : s.thread i = TState.finishing v) :
      Step K fv s { s with lock := none,
                           thread := Function.update s.thread i (TState.done v) }

/-- A thread in one of these control states holds the per-attribute lock. -/
def holdsLock {V : Type} : TState V → Prop
  | TState.locked => True
  | TState.computing => True
  | TState.storing _ => True
  | TState.finishing _ => True
  | _ => False

/-- Inductive invariant of the transition system. -/
structure CInv {V : Type} (fv : V) (s : CState V) : Prop where
  lockOwner : ∀ i, holdsLock (s.thread i) → s.lock = some i
  slotVal   : ∀ v, s.slot = some v → v = fv
  storeVal  : ∀ i v, s.thread i = TState.storing v → v = fv
  finVal    : ∀ i v, s.thread i = TState.finishing v → v = fv
  doneVal   : ∀ i v, s.thread i = TState.done v → v = fv
  compSlot  : ∀ i, s.thread i = TState.computing → s.slot = none
  countZero : s.slot = none → (∀ i v, s.thread i ≠ TState.storing v) → s.count = 0
  countOne  : (s.slot ≠ none ∨ ∃ i v, s.thread i = TState.storing v) → s.count = 1
  finSlot   : ∀ i v, s.thread i = TState.finishing v → s.slot ≠ none
  doneSlot  : ∀ i v, s.thread i = TState.done v → s.slot ≠ none

/-- The invariant holds initially. -/
theorem cinv_init {V : Type} (fv : V) : CInv fv (cinit : CState V) := by
  refine ⟨?_, ?_, ?_, ?_, ?_, ?_, ?_, ?_, ?_, ?_⟩
  · intro i h
    simp [cinit, holdsLock] at h
  · intro v h
    simp [cinit] at h
  · intro i v h
    simp [cinit] at h
  · intro i v h
    simp [cinit] at h
  · intro i v h
    simp [cinit] at h
  · intro i h
    simp [cinit] at h
  · intro _ _
    rfl
  · intro h
    rcases h with h | ⟨i, v, h⟩
    · simp [cinit] at h
    · simp [cinit] at h
  · intro i v h
    simp [cinit] at h
  · intro i v h
    simp [cinit] at h

/-- Preservation: every atomic action maintains the invariant. -/
theorem cinv_step {V : Type} {K : Nat} {fv : V} {s t : CState V}
    (hstep : Step K fv s t) (hInv : CInv fv s) : CInv fv t := by
  cases hstep with
  | fastHit i v hi ht hs =>
      refine ⟨?_, ?_, ?_, ?_, ?_, ?_, ?_, ?_, ?_, ?_⟩
      · intro j hj
        rcases eq_or_ne j i with rfl | hne
        · simp [Function.update_apply, holdsLock] at hj
        · have hx : holdsLock (s.thread j) := by
            simpa [Function.update_apply, hne] using hj
          exact hInv.lockOwner j hx
      · intro w hw
        exact hInv.slotVal w hw
      · intro j w hj
        rcases eq_or_ne j i with rfl | hne
        · simp [Function.update_apply] at hj
        · have hx : s.thread j = TState.storing w := by
            simpa [Function.update_apply, hne] using hj
          exact hInv.storeVal j w hx
      · intro j w hj
        rcases eq_or_ne j i with rfl | hne
        · simp [Function.update_apply] at hj
        · have hx : s.thread j = TState.finishing w := by
            simpa [Function.update_apply, hne] using hj
          exact hInv.finVal j w hx
      · intro j w hj
        rcases eq_or_ne j i with rfl | hne
        · have hx : TState.done v = TState.done w := by
            simpa [Function.update_apply] using hj
          injection hx with hvw
          subst hvw
          exact hInv.slotVal _ hs
        · have hx : s.thread j = TState.done w := by
            simpa [Function.update_apply, hne] using hj
          exact hInv.doneVal j w hx
      · intro j hj
        rcases eq_or_ne j i with rfl | hne
        · simp [Function.update_apply] at hj
        · have hx : s.thread j = TState.computing := by
            simpa [Function.update_apply, hne] using hj
          exact hInv.compSlot j hx
      · intro h1 h2
        have h1x : s.slot = none := h1
        simp [hs] at h1x
      · intro _
        exact hInv.countOne (Or.inl (by simp [hs]))
      · intro j w hj
        simp [hs]
      · intro j w hj
        simp [hs]
  | fastMiss i hi ht hs =>
      refine ⟨?_, ?_, ?_, ?_, ?_, ?_, ?_, ?_, ?_, ?_⟩
      · intro j hj
        rcases eq_or_ne j i with rfl | hne
        · simp [Function.update_apply, holdsLock] at hj
        · have hx : holdsLock (s.thread j) := by
            simpa [Function.update_apply, hne] using hj
          exact hInv.lockOwner j hx
      · intro w hw
        exact hInv.slotVal w hw
      · intro j w hj
        rcases eq_or_ne j i with rfl | hne
        · simp [Function.update_apply] at hj
        · have hx : s.thread j = TState.storing w := by
            simpa [Function.update_apply, hne] using hj
          exact hInv.storeVal j w hx
      · intro j w hj
        rcases eq_or_ne j i with rfl | hne
        · simp [Function.update_apply] at hj
        · have hx : s.thread j = TState.finishing w := by
            simpa [Function.update_apply, hne] using hj
          exact hInv.finVal j w hx
      · intro j w hj
        rcases eq_or_ne j i with rfl | hne
        · simp [Function.update_apply] at hj
        · have hx : s.thread j = TState.done w := by
            simpa [Function.update_apply, hne] using hj
          exact hInv.doneVal j w hx
      · intro j hj
        rcases eq_or_ne j i with rfl | hne
        · simp [Function.update_apply] at hj
        · have hx : s.thread j = TState.computing := by
            simpa [Function.update_apply, hne] using hj
          exact hInv.compSlot j hx
      · intro h1 h2
        apply hInv.countZero hs
        intro j w hjw
        rcases eq_or_ne j i with rfl | hne
        · simp [ht] at hjw
        · exact h2 j w (by simp [Function.update_apply, hne]; exact hjw)
      · intro h
        rcases h with h | ⟨j, w, hj⟩
        · exact absurd hs h
        · apply hInv.countOne
          right
          rcases eq_or_ne j i with rfl | hne
          · simp [Function.update_apply] at hj
          · exact ⟨j, w, by simpa [Function.update_apply, hne] using hj⟩
      · intro j w hj
        rcases eq_or_ne j i with rfl | hne
        · simp [Function.update_apply] at hj
        · have hx : s.thread j = TState.finishing w := by
            simpa [Function.update_apply, hne] using hj
          exact hInv.finSlot j w hx
      · intro j w hj
        rcases eq_or_ne j i with rfl | hne
        · simp [Function.update_apply] at hj
        · have hx : s.thread j = TState.done w := by
            simpa [Function.update_apply, hne] using hj
          exact hInv.doneSlot j w hx
  | acquire i hi ht hl =>
      refine ⟨?_, ?_, ?_, ?_, ?_, ?_, ?_, ?_, ?_, ?_⟩
      · intro j hj
        rcases eq_or_ne j i with rfl | hne
        · rfl
        · have hx : holdsLock (s.thread j) := by
            simpa [Function.update_apply, hne] using hj
          have hy := hInv.lockOwner j hx
          rw [hl] at hy
          simp at hy
      · intro w hw
        exact hInv.slotVal w hw
      · intro j w hj
        rcases eq_or_ne j i with rfl | hne
        · simp [Function.update_apply] at hj
        · have hx : s.thread j = TState.storing w := by
            simpa [Function.update_apply, hne] using hj
          exact hInv.storeVal j w hx
      · intro j w hj
        rcases eq_or_ne j i with rfl | hne
        · simp [Function.update_apply] at hj
        · have hx : s.thread j = TState.finishing w := by
            simpa [Function.update_apply, hne] using hj
          exact hInv.finVal j w hx
      · intro j w hj
        rcases eq_or_ne j i with rfl | hne
        · simp [Function.update_apply] at hj
        · have hx : s.thread j = TState.done w := by
            simpa [Function.update_apply, hne] using hj
          exact hInv.doneVal j w hx
      · intro j hj
        rcases eq_or_ne j i with rfl | hne
        · simp [Function.update_apply] at hj
        · have hx : s.thread j = TState.computing := by
            simpa [Function.update_apply, hne] using hj
          exact hInv.compSlot j hx
      · intro h1 h2
        have h1x : s.slot = none := h1
        apply hInv.countZero h1x
        intro j w hjw
        rcases eq_or_ne j i with rfl | hne
        · simp [ht] at hjw
        · exact h2 j w (by simp [Function.update_apply, hne]; exact hjw)
      · intro h
        apply hInv.countOne
        rcases h with h | ⟨j, w, hj⟩
        · exact Or.inl h
        · right
          rcases eq_or_ne j i with rfl | hne
          · simp [Function.update_apply] at hj
          · exact ⟨j, w, by simpa [Function.update_apply, hne] using hj⟩
      · intro j w hj
        rcases eq_or_ne j i with rfl | hne
        · simp [Function.update_apply] at hj
        · have hx : s.thread j = TState.finishing w := by
            simpa [Function.update_apply, hne] using hj
          exact hInv.finSlot j w hx
      · intro j w hj
        rcases eq_or_ne j i with rfl | hne
        · simp [Function.update_apply] at hj
        · have hx : s.thread j = TState.done w := by
            simpa [Function.update_apply, hne] using hj
          exact hInv.doneSlot j w hx
  | recheckHit i v hi ht hs =>
      refine ⟨?_, ?_, ?_, ?_, ?_, ?_, ?_, ?_, ?_, ?_⟩
      · intro j hj
        rcases eq_or_ne j i with rfl | hne
        · exact hInv.lockOwner j (by simp [ht, holdsLock])
        · have hx : holdsLock (s.thread j) := by
            simpa [Function.update_apply, hne] using hj
          exact hInv.lockOwner j hx
      · intro w hw
        exact hInv.slotVal w hw
      · intro j w hj
        rcases eq_or_ne j i with rfl | hne
        · simp [Function.update_apply] at hj
        · have hx : s.thread j = TState.storing w := by
            simpa [Function.update_apply, hne] using hj
          exact hInv.storeVal j w hx
      · intro j w hj
        rcases eq_or_ne j i with rfl | hne
        · have hx : TState.finishing v = TState.finishing w := by
            simpa [Function.update_apply] using hj
          injection hx with hvw
          subst hvw
          exact hInv.slotVal _ hs
        · have hx : s.thread j = TState.finishing w := by
            simpa [Function.update_apply, hne] using hj
          exact hInv.finVal j w hx
      · intro j w hj
        rcases eq_or_ne j i with rfl | hne
        · simp [Function.update_apply] at hj
        · have hx : s.thread j = TState.done w := by
            simpa [Function.update_apply, hne] using hj
          exact hInv.doneVal j w hx
      · intro j hj
        rcases eq_or_ne j i with rfl | hne
        · simp [Function.update_apply] at hj
        · have hx : s.thread j = TState.computing := by
            simpa [Function.update_apply, hne] using hj
          exact hInv.compSlot j hx
      · intro h1 h2
        have h1x : s.slot = none := h1
        simp [hs] at h1x
      · intro _
        exact hInv.countOne (Or.inl (by simp [hs]))
      · intro j w hj
        simp [hs]
      · intro j w hj
        simp [hs]
  | recheckMiss i hi ht hs =>
      refine ⟨?_, ?_, ?_, ?_, ?_, ?_, ?_, ?_, ?_, ?_⟩
      · intro j hj
        rcases eq_or_ne j i with rfl | hne
        · exact hInv.lockOwner j (by simp [ht, holdsLock])
        · have hx : holdsLock (s.thread j) := by
            simpa [Function.update_apply, hne] using hj
          exact hInv.lockOwner j hx
      · intro w hw
        exact hInv.slotVal w hw
      · intro j w hj
        rcases eq_or_ne j i with rfl | hne
        · simp [Function.update_apply] at hj
        · have hx : s.thread j = TState.storing w := by
            simpa [Function.update_apply, hne] using hj
          exact hInv.storeVal j w hx
      · intro j w hj
        rcases eq_or_ne j i with rfl | hne
        · simp [Function.update_apply] at hj
        · have hx : s.thread j = TState.finishing w := by
            simpa [Function.update_apply, hne] using hj
          exact hInv.finVal j w hx
      · intro j w hj
        rcases eq_or_ne j i with rfl | hne
        · simp [Function.update_apply] at hj
        · have hx : s.thread j = TState.done w := by
            simpa [Function.update_apply, hne] using hj
          exact hInv.doneVal j w hx
      · intro j hj
        rcases eq_or_ne j i with rfl | hne
        · exact hs
        · have hx : s.thread j = TState.computing := by
            simpa [Function.update_apply, hne] using hj
          exact hInv.compSlot j hx
      · intro h1 h2
        apply hInv.countZero hs
        intro j w hjw
        rcases eq_or_ne j i with rfl | hne
        · simp [ht] at hjw
        · exact h2 j w (by simp [Function.update_apply, hne]; exact hjw)
      · intro h
        apply hInv.countOne
        rcases h with h | ⟨j, w, hj⟩
        · exact Or.inl h
        · right
          rcases eq_or_ne j i with rfl | hne
          · simp [Function.update_apply] at hj
          · exact ⟨j, w, by simpa [Function.update_apply, hne] using hj⟩
      · intro j w hj
        rcases eq_or_ne j i with rfl | hne
        · simp [Function.update_apply] at hj
        · have hx : s.thread j = TState.finishing w := by
            simpa [Function.update_apply, hne] using hj
          exact hInv.finSlot j w hx
      · intro j w hj
        rcases eq_or_ne j i with rfl | hne
        · simp [Function.update_apply] at hj
        · have hx : s.thread j = TState.done w := by
            simpa [Function.update_apply, hne] using hj
          exact hInv.doneSlot j w hx
  | compute i hi ht =>
      refine ⟨?_, ?_, ?_, ?_, ?_, ?_, ?_, ?_, ?_, ?_⟩
      · intro j hj
        rcases eq_or_ne j i with rfl | hne
        · exact hInv.lockOwner j (by simp [ht, holdsLock])
        · have hx : holdsLock (s.thread j) := by
            simpa [Function.update_apply, hne] using hj
          exact hInv.lockOwner j hx
      · intro w hw
        exact hInv.slotVal w hw
      · intro j w hj
        rcases eq_or_ne j i with rfl | hne
        · have hx : TState.storing fv = TState.storing w := by
            simpa [Function.update_apply] using hj
          injection hx with hvw
          subst hvw
          rfl
        · have hx : s.thread j = TState.storing w := by
            simpa [Function.update_apply, hne] using hj
          exact hInv.storeVal j w hx
      · intro j w hj
        rcases eq_or_ne j i with rfl | hne
        · simp [Function.update_apply] at hj
        · have hx : s.thread j = TState.finishing w := by
            simpa [Function.update_apply, hne] using hj
          exact hInv.finVal j w hx
      · intro j w hj
        rcases eq_or_ne j i with rfl | hne
        · simp [Function.update_apply] at hj
        · have hx : s.thread j = TState.done w := by
            simpa [Function.update_apply, hne] using hj
          exact hInv.doneVal j w hx
      · intro j hj
        rcases eq_or_ne j i with rfl | hne
        · simp [Function.update_apply] at hj
        · have hx : s.thread j = TState.computing := by
            simpa [Function.update_apply, hne] using hj
          exact hInv.compSlot j hx
      · intro h1 h2
        exact absurd
          (show Function.update s.thread i (TState.storing fv) i =
              TState.storing fv by simp [Function.update_apply])
          (h2 i fv)
      · intro _
        have hslot0 : s.slot = none := hInv.compSlot i ht
        have hnost : ∀ j w, s.thread j ≠ TState.storing w := by
          intro j w hjw
          have ha := hInv.lockOwner j (by simp [hjw, holdsLock])
          have hb := hInv.lockOwner i (by simp [ht, holdsLock])
          rw [ha] at hb
          injection hb with hji
          subst hji
          simp [ht] at hjw
        have hc := hInv.countZero hslot0 hnost
        show s.count + 1 = 1
        rw [hc]
      · intro j w hj
        rcases eq_or_ne j i with rfl | hne
        · simp [Function.update_apply] at hj
        · have hx : s.thread j = TState.finishing w := by
            simpa [Function.update_apply, hne] using hj
          exact hInv.finSlot j w hx
      · intro j w hj
        rcases eq_or_ne j i with rfl | hne
        · simp [Function.update_apply] at hj
        · have hx : s.thread j = TState.done w := by
            simpa [Function.update_apply, hne] using hj
          exact hInv.doneSlot j w hx
  | store i v hi ht =>
      refine ⟨?_, ?_, ?_, ?_, ?_, ?_, ?_, ?_, ?_, ?_⟩
      · intro j hj
        rcases eq_or_ne j i with rfl | hne
        · exact hInv.lockOwner j (by simp [ht, holdsLock])
        · have hx : holdsLock (s.thread j) := by
            simpa [Function.update_apply, hne] using hj
          exact hInv.lockOwner j hx
      · intro w hw
        have hwx : some v = some w := hw
        injection hwx with hvw
        subst hvw
        exact hInv.storeVal i _ ht
      · intro j w hj
        rcases eq_or_ne j i with rfl | hne
        · simp [Function.update_apply] at hj
        · have hx : s.thread j = TState.storing w := by
            simpa [Function.update_apply, hne] using hj
          exact hInv.storeVal j w hx
      · intro j w hj
        rcases eq_or_ne j i with rfl | hne
        · have hx : TState.finishing v = TState.finishing w := by
            simpa [Function.update_apply] using hj
          injection hx with hvw
          subst hvw
          exact hInv.storeVal j _ ht
        · have hx : s.thread j = TState.finishing w := by
            simpa [Function.update_apply, hne] using hj
          exact hInv.finVal j w hx
      · intro j w hj
        rcases eq_or_ne j i with rfl | hne
        · simp [Function.update_apply] at hj
        · have hx : s.thread j = TState.done w := by
            simpa [Function.update_apply, hne] using hj
          exact hInv.doneVal j w hx
      · intro j hj
        rcases eq_or_ne j i with rfl | hne
        · simp [Function.update_apply] at hj
        · have hx : s.thread j = TState.computing := by
            simpa [Function.update_apply, hne] using hj
          have ha := hInv.lockOwner j (by simp [hx, holdsLock])
          have hb := hInv.lockOwner i (by simp [ht, holdsLock])
          rw [ha] at hb
          injection hb with hji
          exact absurd hji hne
      · intro h1 h2
        have h1x : some v = (none : Option V) := h1
        simp at h1x
      · intro _
        apply hInv.countOne
        exact Or.inr ⟨i, v, ht⟩
      · intro j w hj
        simp
      · intro j w hj
        simp
  | release i v hi ht =>
      refine ⟨?_, ?_, ?_, ?_, ?_, ?_, ?_, ?_, ?_, ?_⟩
      · intro j hj
        rcases eq_or_ne j i with rfl | hne
        · simp [Function.update_apply, holdsLock] at hj
        · have hx : holdsLock (s.thread j) := by
            simpa [Function.update_apply, hne] using hj
          have ha := hInv.lockOwner j hx
          have hb := hInv.lockOwner i (by simp [ht, holdsLock])
          rw [ha] at hb
          injection hb with hji
          exact absurd hji hne
      · intro w hw
        exact hInv.slotVal w hw
      · intro j w hj
        rcases eq_or_ne j i with rfl | hne
        · simp [Function.update_apply] at hj
        · have hx : s.thread j = TState.storing w := by
            simpa [Function.update_apply, hne] using hj
          exact hInv.storeVal j w hx
      · intro j w hj
        rcases eq_or_ne j i with rfl | hne
        · simp [Function.update_apply] at hj
        · have hx : s.thread j = TState.finishing w := by
            simpa [Function.update_apply, hne] using hj
          exact hInv.finVal j w hx
      · intro j w hj
        rcases eq_or_ne j i with rfl | hne
        · have hx : TState.done v = TState.done w := by
            simpa [Function.update_apply] using hj
          injection hx with hvw
          subst hvw
          exact hInv.finVal j _ ht
        · have hx : s.thread j = TState.done w := by
            simpa [Function.update_apply, hne] using hj
          exact hInv.doneVal j w hx
      · intro j hj
        rcases eq_or_ne j i with rfl | hne
        · simp [Function.update_apply] at hj
        · have hx : s.thread j = TState.computing := by
            simpa [Function.update_apply, hne] using hj
          exact hInv.compSlot j hx
      · intro h1 h2
        exact absurd (show s.slot = none from h1) (hInv.finSlot i v ht)
      · intro h
        apply hInv.countOne
        rcases h with h | ⟨j, w, hj⟩
        · exact Or.inl h
        · right
          rcases eq_or_ne j i with rfl | hne
          · simp [Function.update_apply] at hj
          · exact ⟨j, w, by simpa [Function.update_apply, hne] using hj⟩
      · intro j w hj
        exact hInv.finSlot i v ht
      · intro j w hj
        exact hInv.finSlot i v ht

/-- The invariant holds in every reachable state. -/
theorem cinv_reachable {V : Type} (K : Nat) (fv : V) (s : CState V)
    (h : Relation.ReflTransGen (Step K fv) cinit s) : CInv fv s := by
  induction h with
  | refl => exact cinv_init fv
  | tail _ hbc ih => exact cinv_step hbc ih

/-- Claim C2: in every interleaved execution in which K threads (K at least
one) concurrently read the same Unset cached attribute of the same instance
and all K reads complete, the compute function has been invoked exactly once
and every thread has returned the identical computed value. -/
theorem cachedproperty_concurrent_exactly_once {V : Type} (K : Nat) (fv : V)
    (s : CState V) (hK : 1 ≤ K)
    (hsteps : Relation.ReflTransGen (Step K fv) cinit s)
    (hdone : ∀ i, i < K → ∃ v, s.thread i = TState.done v) :
    s.count = 1 ∧ ∀ i, i < K → s.thread i = TState.done fv := by
  have hinv := cinv_reachable K fv s hsteps
  obtain ⟨v0, hv0⟩ := hdone 0 hK
  have hslot : s.slot ≠ none := hinv.doneSlot 0 v0 hv0
  refine ⟨hinv.countOne (Or.inl hslot), ?_⟩
  intro i hi
  obtain ⟨v, hv⟩ := hdone i hi
  rw [hv, hinv.doneVal i v hv]

/-- Final state of a concrete two-thread execution: thread 0 takes the slow
path (miss, acquire, re-check miss, compute, store, release) and thread 1
then hits on the fast path. -/
def cexample_final : CState Nat :=
  ⟨some 42, none, 1,
    Function.update
      (Function.update
        (Function.update
          (Function.update
            (Function.update
              (Function.update
                (Function.update (fun _ => TState.fastpath)
                  0 TState.awaiting)
                0 TState.locked)
              0 TState.computing)
            0 (TState.storing 42))
          0 (TState.finishing 42))
        0 (TState.done 42))
      1 (TState.done 42)⟩

/-- A complete two-thread execution reaching that final state. -/
theorem cexample_steps :
    Relation.ReflTransGen (Step 2 (42 : Nat)) cinit cexample_final := by
  refine Relation.ReflTransGen.head
    (Step.fastMiss cinit 0 (by omega) rfl rfl) ?_
  refine Relation.ReflTransGen.head
    (Step.acquire _ 0 (by omega) rfl rfl) ?_
  refine Relation.ReflTransGen.head
    (Step.recheckMiss _ 0 (by omega) rfl rfl) ?_
  refine Relation.ReflTransGen.head
    (Step.compute _ 0 (by omega) rfl) ?_
  refine Relation.ReflTransGen.head
    (Step.store _ 0 42 (by omega) rfl) ?_
  refine Relation.ReflTransGen.head
    (Step.release _ 0 42 (by omega) rfl) ?_
  refine Relation.ReflTransGen.head
    (Step.fastHit _ 1 42 (by omega) rfl rfl) ?_
  exact Relation.ReflTransGen.refl

/-- Witness for C2 on the concrete two-thread execution. -/
theorem cachedproperty_concurrent_exactly_once_witness :
    cexample_final.count = 1 ∧
    cexample_final.thread 0 = TState.done 42 ∧
    cexample_final.thread 1 = TState.done 42 := by
  have h := cachedproperty_concurrent_exactly_once 2 (42 : Nat) cexample_final
    (by omega) cexample_steps ?_
  · exact ⟨h.1, h.2 0 (by omega), h.2 1 (by omega)⟩
  · intro i hi
    match i, hi with
    | 0, _ => exact ⟨42, rfl⟩
    | 1, _ => exact ⟨42, rfl⟩
